import Mathlib

/-!
Verification of the Calabi-Yau dataset-generation pipeline
(`generate_dataset.py`) and the residual dense network (`model.py`).

The script samples triangulations of a fixed polytope in parallel rounds,
deduplicates the resulting Calabi-Yau manifolds by a canonical fingerprint of
their intersection-number tensor, accumulates `(GKZ vector, label)` entries per
fingerprint, then shuffles at manifold level, splits into train/test, flattens
and z-score normalizes features with train statistics only.

We embed the pipeline shallowly: the dedup map is an insertion-ordered
association list (mirroring `defaultdict` iteration order), the sampling loop
is a fuel-indexed iteration of the round body, the external geometry library is
abstracted as function parameters, machine floats in the split ratio are
modelled as rationals, and `np.sort(..., axis=0)` is the columnwise sort it
performs.
-/

namespace CYDataset

/-!
### Manifold fingerprint (`generate_dataset.py`, lines 52-54)

`intersection_numbers = np.sort(intersection_numbers, axis=0)` sorts every
column of the coo-format tensor independently; then
`tuple(map(tuple, intersection_numbers))` freezes the rows.  We model the
tensor as a row-major rectangular list of integer lists.
-/

/-- Column `j` of a row-major matrix, as numpy's `arr[:, j]`; out-of-range
entries read as `0` (never exercised on rectangular input). -/
def column (a : List (List ℤ)) (j : ℕ) : List ℤ :=
  a.map (fun r => r.getD j 0)

/-- Number of columns of a row-major matrix (rectangular by construction in
the script: every coo row has the same arity). -/
def numCols (a : List (List ℤ)) : ℕ :=
  (a.headD []).length

/-- `np.sort(arr, axis=0)`: each column is sorted independently, the shape is
kept; entry `(i, j)` of the result is the `i`-th smallest element of column
`j`. -/
def sortAxis0 (a : List (List ℤ)) : List (List ℤ) :=
  (List.range a.length).map fun i =>
    (List.range (numCols a)).map fun j =>
      (List.insertionSort (· ≤ ·) (column a j)).getD i 0

/-- `tuple(map(tuple, np.sort(intersection_numbers, axis=0)))`: the manifold
fingerprint used as dedup key. -/
def fingerprint (a : List (List ℤ)) : List (List ℤ) :=
  sortAxis0 a

/-!
### Worker task (`generate_CYs`, lines 38-58)

Each task draws a batch of triangulations with the `cgal` backend, retrying
once with `qhull` on failure and returning `[]` if both fail; for each
triangulation it emits `(fingerprint, gkz[1:], log10 volume)`.  The external
geometry calls (sampling, `gkz_phi`, `intersection_numbers`, volume, the log)
are abstracted as function parameters; a failed backend call is `none`.
-/

/-- The per-triangulation body of `generate_CYs`: drop the constant first GKZ
coordinate, canonicalize the intersection tensor into the fingerprint, pair
with the label.  `gkz_phi`, `coo` and `logVol` stand for the external geometry
library. -/
def processTriangulation {T A : Type} (gkz_phi : T → List A)
    (coo : T → List (List ℤ)) (logVol : T → ℝ) (t : T) :
    List (List ℤ) × List A × ℝ :=
  (fingerprint (coo t), (gkz_phi t).drop 1, logVol t)

/-- `generate_CYs`: try the `cgal` backend; on exception retry the same call
with `qhull`; if that also raises, return the empty list.  A backend outcome
is `some` batch or `none` for an exception. -/
def generate_CYs {T A : Type} (gkz_phi : T → List A) (coo : T → List (List ℤ))
    (logVol : T → ℝ) (cgal qhull : Option (List T)) :
    List (List (List ℤ) × List A × ℝ) :=
  match cgal with
  | some ts => ts.map (processTriangulation gkz_phi coo logVol)
  | none =>
    match qhull with
    | some ts => ts.map (processTriangulation gkz_phi coo logVol)
    | none => []

/-!
### Sampling/deduplication loop (lines 60-69)

`CY_dict` is a `defaultdict(lambda: [])`; iteration order is insertion order,
so we model it as an association list from keys to entry lists, with new keys
appended at the end.  The loop body merges all worker results and then adds
`num_threads * compute_chunk_size` to `triangulation_ctr` regardless of how
many results actually arrived.  The per-round worker results are an oracle
indexed by round number; the loop itself is fuel-indexed.
-/

/-- `CY_dict[d[0]] += [[d[1], d[2]]]`: append the entry to the key's list, or
create the key at the end of the insertion order. -/
def dictInsert {K E : Type} [DecidableEq K] :
    List (K × List E) → K → E → List (K × List E)
  | [], k, e => [(k, [e])]
  | (k', es) :: rest, k, e =>
    if k = k' then (k', es ++ [e]) :: rest else (k', es) :: dictInsert rest k e

/-- Merge one round's `(fingerprint, entry)` results into the dedup map, in
arrival order. -/
def mergeRound {K E : Type} [DecidableEq K] (dict : List (K × List E))
    (results : List (K × E)) : List (K × List E) :=
  results.foldl (fun d r => dictInsert d r.1 r.2) dict

/-- The run parameters of the sampling loop: unique target `num_CYs`, hard cap
`max_dataset_size`, worker count `num_threads`, per-call batch
`compute_chunk_size`. -/
structure SamplerParams where
  num_CYs : ℕ
  max_dataset_size : ℕ
  num_threads : ℕ
  compute_chunk_size : ℕ

/-- The loop state: the dedup map and `triangulation_ctr`. -/
structure LoopState (K E : Type) where
  dict : List (K × List E)
  ctr : ℕ

/-- The `while` guard: `len(CY_dict) < num_CYs and triangulation_ctr <
max_dataset_size`. -/
def loopCond {K E : Type} (p : SamplerParams) (st : LoopState K E) : Prop :=
  st.dict.length < p.num_CYs ∧ st.ctr < p.max_dataset_size

instance {K E : Type} (p : SamplerParams) (st : LoopState K E) :
    Decidable (loopCond p st) :=
  inferInstanceAs (Decidable (st.dict.length < p.num_CYs ∧ st.ctr < p.max_dataset_size))

/-- One round body: merge every task's results into the map (in task order,
then in-batch order), then `triangulation_ctr += num_threads *
compute_chunk_size`. -/
def loopStep {K E : Type} [DecidableEq K] (p : SamplerParams)
    (results : List (List (K × E))) (st : LoopState K E) : LoopState K E :=
  ⟨mergeRound st.dict results.flatten,
    st.ctr + p.num_threads * p.compute_chunk_size⟩

/-- The sampling loop, fuel-indexed: while the guard holds, run a round with
the oracle's results for the current round number. -/
def runLoop {K E : Type} [DecidableEq K] (p : SamplerParams)
    (oracle : ℕ → List (List (K × E))) :
    ℕ → ℕ → LoopState K E → LoopState K E
  | 0, _, st => st
  | fuel + 1, round, st =>
    if loopCond p st then
      runLoop p oracle fuel (round + 1) (loopStep p (oracle round) st)
    else st

/-- The manifold fingerprints present in a dedup map (its keys). -/
def keysOf {K E : Type} (dict : List (K × List E)) : List K :=
  dict.map Prod.fst

/-- The script's configured parameters (lines 21-25): `num_CYs = 1e6`,
`max_dataset_size = int(1e10)`, `num_threads = 16`,
`compute_chunk_size = int(1e2)`. -/
def configParams : SamplerParams :=
  ⟨1000000, 10000000000, 16, 100⟩

/-- Parameters exhibiting a cap overshoot: cap `5` with round increment
`2 * 10 = 20`. -/
def capParams : SamplerParams :=
  ⟨5, 5, 2, 10⟩

/-- An oracle whose two tasks each return a full batch of ten triangulations,
all resolving to the same fingerprint. -/
def capOracle : ℕ → List (List (ℕ × ℕ)) :=
  fun _ => [List.replicate 10 (0, 0), List.replicate 10 (0, 0)]

/-- The spec scenario's parameters: `U = 5`, `C = 1000`, `W = 2`, `B = 10`. -/
def scenarioParams : SamplerParams :=
  ⟨5, 1000, 2, 10⟩

/-- A batch of ten triangulations resolving to only three distinct
fingerprints. -/
def scenarioChunk : List (ℕ × ℕ) :=
  [(0, 0), (1, 0), (2, 0), (0, 0), (1, 0), (2, 0), (0, 0), (1, 0), (2, 0), (0, 0)]

/-- The mock sampler of the spec scenario: every round, both tasks return the
three-fingerprint batch. -/
def scenarioOracle : ℕ → List (List (ℕ × ℕ)) :=
  fun _ => [scenarioChunk, scenarioChunk]

/-!
### Split, flatten and normalize (lines 71-94)

`dataset = list(CY_dict.values())` is shuffled at manifold level, split at
`int(len(dataset) * train_test_split)`, flattened, and the features are
z-score normalized with statistics of the train matrix only.  The float ratio
is modelled as a rational; `int(...)` of a nonnegative product is the floor.
-/

/-- `train_dataset_size = int(len(dataset) * train_test_split)`. -/
def trainSize (k : ℕ) (ratio : ℚ) : ℕ :=
  (⌊(k : ℚ) * ratio⌋).toNat

/-- Lines 76-82: split the shuffled manifold-level list at `trainSize` and
flatten each side into a plain list of entries. -/
def splitFlatten {E : Type} (shuffled : List (List E)) (ratio : ℚ) :
    List E × List E :=
  ((shuffled.take (trainSize shuffled.length ratio)).flatten,
    (shuffled.drop (trainSize shuffled.length ratio)).flatten)

/-- `np.array([d[0] for d in dataset])`: the feature matrix of a flattened
dataset of `(GKZVector, Label)` entries. -/
def featuresOf (ds : List (List ℝ × ℝ)) : List (List ℝ) :=
  ds.map Prod.fst

/-- `arr.mean()`: the mean of a list of reals. -/
noncomputable def meanR (xs : List ℝ) : ℝ :=
  xs.sum / xs.length

/-- `arr.std()`: numpy's population standard deviation, the square root of the
mean squared deviation. -/
noncomputable def stdR (xs : List ℝ) : ℝ :=
  Real.sqrt (meanR (xs.map fun x => (x - meanR xs) ^ 2))

/-- `tol = 1e-10`. -/
noncomputable def tol : ℝ :=
  1 / 10 ^ 10

/-- Column `j` of a real feature matrix (numpy axis-0 reductions act per
column). -/
def colOf (m : List (List ℝ)) (j : ℕ) : List ℝ :=
  m.map fun r => r.getD j 0

/-- Lines 93-94: `(x - features_mean) / (features_std + tol)` with the
statistics taken from the `train` matrix, applied entrywise to `m`. -/
noncomputable def normalizeWith (train m : List (List ℝ)) : List (List ℝ) :=
  m.map fun row => (List.range row.length).map fun j =>
    (row.getD j 0 - meanR (colOf train j)) / (stdR (colOf train j) + tol)

/-- The flattened train feature matrix of a run over the shuffled
manifold-level dataset `d`. -/
def trainFeatures (d : List (List (List ℝ × ℝ))) (r : ℚ) : List (List ℝ) :=
  featuresOf (splitFlatten d r).1

/-- The flattened test feature matrix of a run. -/
def testFeatures (d : List (List (List ℝ × ℝ))) (r : ℚ) : List (List ℝ) :=
  featuresOf (splitFlatten d r).2

/-- `features_mean[j]` of a run: per-feature mean over the train matrix
only. -/
noncomputable def featMean (d : List (List (List ℝ × ℝ))) (r : ℚ) (j : ℕ) : ℝ :=
  meanR (colOf (trainFeatures d r) j)

/-- `features_std[j]` of a run: per-feature standard deviation over the train
matrix only. -/
noncomputable def featStd (d : List (List (List ℝ × ℝ))) (r : ℚ) (j : ℕ) : ℝ :=
  stdR (colOf (trainFeatures d r) j)

/-- Line 93: the normalized train feature matrix. -/
noncomputable def normalizedTrainFeatures (d : List (List (List ℝ × ℝ)))
    (r : ℚ) : List (List ℝ) :=
  normalizeWith (trainFeatures d r) (trainFeatures d r)

/-- Line 94: the normalized test feature matrix — same constants, taken from
the train matrix. -/
noncomputable def normalizedTestFeatures (d : List (List (List ℝ × ℝ)))
    (r : ℚ) : List (List ℝ) :=
  normalizeWith (trainFeatures d r) (testFeatures d r)

/-!
### Residual dense layer (`model.py`, lines 5-20)

`forward(x) = relu(x + dropout(alpha * dense(x)))` with `alpha` a learned
scalar initialized to `torch.zeros(1)`.  Vectors are lists of reals; `dense`
is an affine map; dropout is multiplication by an arbitrary mask vector
(Bernoulli-scaled in training, all-ones in eval — either way it fixes `0`).
-/

/-- A residual dense layer's parameters: `nn.Linear(width, width)` weight and
bias, and the learned scalar gate `alpha`. -/
structure ResDenseLayer where
  weight : List (List ℝ)
  bias : List ℝ
  alpha : ℝ

/-- Matrix-vector product, row by row. -/
noncomputable def matVec (w : List (List ℝ)) (x : List ℝ) : List ℝ :=
  w.map fun row => (List.zipWith (· * ·) row x).sum

/-- `self.dense(x) = W x + b`. -/
noncomputable def ResDenseLayer.dense (l : ResDenseLayer) (x : List ℝ) : List ℝ :=
  List.zipWith (· + ·) (matVec l.weight x) l.bias

/-- `F.relu`, elementwise `max(·, 0)`. -/
noncomputable def relu (x : List ℝ) : List ℝ :=
  x.map fun a => max a 0

/-- `self.dropout(y)`: elementwise multiplication by the dropout mask. -/
noncomputable def dropoutApply (mask y : List ℝ) : List ℝ :=
  List.zipWith (· * ·) mask y

/-- `ResDenseLayer.forward`: `y = alpha * dense(x); y = x + dropout(y);
y = relu(y)`. -/
noncomputable def ResDenseLayer.forward (l : ResDenseLayer) (mask x : List ℝ) : List ℝ :=
  relu (List.zipWith (· + ·) x
    (dropoutApply mask ((l.dense x).map fun v => l.alpha * v)))

/-- The initial value of the gate: `self.alpha = nn.Parameter(torch.zeros(1))`. -/
noncomputable def initAlpha : ℝ :=
  0

/-!
## Theorems
-/

/-- Sorting is a canonical form: two lists that are permutations of one
another sort to the same list. -/
theorem insertionSort_eq_of_perm {c₁ c₂ : List ℤ} (h : c₁.Perm c₂) :
    List.insertionSort (· ≤ ·) c₁ = List.insertionSort (· ≤ ·) c₂ :=
  List.eq_of_perm_of_sorted
    ((List.perm_insertionSort _ _).trans (h.trans (List.perm_insertionSort _ _).symm))
    (List.sorted_insertionSort _ _) (List.sorted_insertionSort _ _)

/-- The fingerprint only depends on the shape and on each column up to
permutation. -/
theorem fingerprint_eq_of_columns_perm {a b : List (List ℤ)}
    (hlen : a.length = b.length) (hcols : numCols a = numCols b)
    (hperm : ∀ j, (column a j).Perm (column b j)) :
    fingerprint a = fingerprint b := by
  unfold fingerprint sortAxis0
  rw [hlen, hcols]
  refine List.map_congr_left fun i _ => ?_
  refine List.map_congr_left fun j _ => ?_
  rw [insertionSort_eq_of_perm (hperm j)]

/-- Rows of a permuted matrix have permuted columns. -/
theorem column_perm_of_perm {a b : List (List ℤ)} (hp : a.Perm b) (j : ℕ) :
    (column a j).Perm (column b j) :=
  hp.map _

/-- Claim C3: permuting the rows of the intersection-number tensor does not
change the fingerprint — the sort-before-tupleization step is
order-canonicalizing, so a fixed manifold gets a byte-identical fingerprint
regardless of the input ordering of tensor entries. -/
theorem fingerprint_perm_invariant {a b : List (List ℤ)} {n : ℕ}
    (ha : ∀ r ∈ a, r.length = n) (hp : a.Perm b) :
    fingerprint a = fingerprint b := by
  cases a with
  | nil =>
    rw [hp.nil_eq]
  | cons r t =>
    have hb : ∀ s ∈ b, s.length = n := fun s hs => ha s (hp.mem_iff.mpr hs)
    have hcols : numCols (r :: t) = numCols b := by
      cases b with
      | nil => exact absurd hp.length_eq (by simp)
      | cons s u =>
        have h1 : r.length = n := ha r (List.mem_cons_self _ _)
        have h2 : s.length = n := hb s (List.mem_cons_self _ _)
        simp [numCols, h1, h2]
    exact fingerprint_eq_of_columns_perm hp.length_eq hcols (column_perm_of_perm hp)

/-- Claim C3 witness: a concrete rectangular tensor and a transposition of its
rows receive the same fingerprint. -/
theorem fingerprint_perm_invariant_witness :
    fingerprint [[0, 1, 5], [2, 0, 3]] = fingerprint [[2, 0, 3], [0, 1, 5]] :=
  fingerprint_perm_invariant (n := 3) (by decide) (by decide)

/-- An out-of-range column of a rectangular matrix is constant `0`. -/
theorem column_eq_replicate_of_le {a : List (List ℤ)} {n j : ℕ}
    (ha : ∀ r ∈ a, r.length = n) (hj : n ≤ j) :
    column a j = List.replicate a.length 0 := by
  induction a with
  | nil => rfl
  | cons r t ih =>
    have hr : r.getD j 0 = 0 :=
      List.getD_eq_default _ _ (le_trans (le_of_eq (ha r (List.mem_cons_self _ _))) hj)
    have ht := ih (fun s hs => ha s (List.mem_cons_of_mem r hs))
    simp only [column, List.map_cons] at ht ⊢
    rw [List.length_cons, List.replicate_succ, hr, ht]

/-- Claim C10: the fingerprint is invariant under any family of permutations
applied independently to each column of the tensor (since `np.sort` with
`axis=0` sorts every column separately); consequently two distinct coo tensors
whose columns agree as multisets — here `[[0,1],[1,0]]` and `[[0,0],[1,1]]` —
receive the same fingerprint: the fingerprint does not preserve the row-wise
association between index columns and value column. -/
theorem fingerprint_columnwise_invariant {a b : List (List ℤ)} {n : ℕ}
    (ha : ∀ r ∈ a, r.length = n) (hb : ∀ s ∈ b, s.length = n)
    (hlen : a.length = b.length)
    (hcols : ∀ j, j < n → (column a j).Perm (column b j)) :
    fingerprint a = fingerprint b ∧
      (fingerprint [[0, 1], [1, 0]] = fingerprint [[0, 0], [1, 1]] ∧
        ([[0, 1], [1, 0]] : List (List ℤ)) ≠ [[0, 0], [1, 1]]) := by
  refine ⟨?_, by decide, by decide⟩
  have hall : ∀ j, (column a j).Perm (column b j) := by
    intro j
    by_cases hj : j < n
    · exact hcols j hj
    · rw [column_eq_replicate_of_le ha (le_of_not_lt hj),
        column_eq_replicate_of_le hb (le_of_not_lt hj), hlen]
  cases a with
  | nil =>
    have : b = [] := by
      cases b with
      | nil => rfl
      | cons s u => exact absurd hlen (by simp)
    subst this
    rfl
  | cons r t =>
    have hncols : numCols (r :: t) = numCols b := by
      cases b with
      | nil => exact absurd hlen (by simp)
      | cons s u =>
        have h1 : r.length = n := ha r (List.mem_cons_self _ _)
        have h2 : s.length = n := hb s (List.mem_cons_self _ _)
        simp [numCols, h1, h2]
    exact fingerprint_eq_of_columns_perm hlen hncols hall

/-- Claim C10 witness: the columnwise-invariance theorem applied at the
concrete collision pair, whose columns agree as multisets. -/
theorem fingerprint_columnwise_invariant_witness :
    fingerprint [[0, 1], [1, 0]] = fingerprint [[0, 0], [1, 1]] ∧
      (fingerprint [[0, 1], [1, 0]] = fingerprint [[0, 0], [1, 1]] ∧
        ([[0, 1], [1, 0]] : List (List ℤ)) ≠ [[0, 0], [1, 1]]) :=
  fingerprint_columnwise_invariant (n := 2) (by decide) (by decide) (by decide)
    (by decide)

/-- Once the guard is false the loop returns its state unchanged, whatever the
fuel. -/
theorem runLoop_eq_of_not_cond {K E : Type} [DecidableEq K] (p : SamplerParams)
    (oracle : ℕ → List (List (K × E))) (fuel round : ℕ) {st : LoopState K E}
    (h : ¬ loopCond p st) : runLoop p oracle fuel round st = st := by
  cases fuel with
  | zero => rfl
  | succ n => rw [runLoop, if_neg h]

/-- If some amount of fuel already drives the loop to a state where the guard
fails, any additional fuel leaves the result unchanged: the loop has
terminated. -/
theorem runLoop_stable {K E : Type} [DecidableEq K] (p : SamplerParams)
    (oracle : ℕ → List (List (K × E))) (fuel : ℕ) :
    ∀ (round : ℕ) (st : LoopState K E),
      ¬ loopCond p (runLoop p oracle fuel round st) →
      ∀ extra, runLoop p oracle (fuel + extra) round st = runLoop p oracle fuel round st := by
  induction fuel with
  | zero =>
    intro round st h extra
    rw [Nat.zero_add]
    exact runLoop_eq_of_not_cond p oracle extra round h
  | succ n ih =>
    intro round st h extra
    by_cases hc : loopCond p st
    · have harr : n + 1 + extra = (n + extra) + 1 := by omega
      rw [harr, runLoop, if_pos hc, runLoop, if_pos hc]
      rw [runLoop, if_pos hc] at h
      exact ih (round + 1) (loopStep p (oracle round) st) h extra
    · rw [runLoop_eq_of_not_cond p oracle _ _ hc, runLoop_eq_of_not_cond p oracle _ _ hc]

/-- Claim C2 (amended): whenever the round increment
`num_threads * compute_chunk_size` divides the hard cap `max_dataset_size` —
as it does for the script's configured parameters, `16 * 100 = 1600` dividing
`10^10` — the counter `triangulation_ctr` never exceeds the cap at any point of
the loop, for every sampler behavior, starting from any reachable state (cap
not yet exceeded, counter a multiple of the increment), even if the
unique-count target is never reached. -/
theorem runLoop_ctr_le_cap {K E : Type} [DecidableEq K] (p : SamplerParams)
    (oracle : ℕ → List (List (K × E)))
    (hdvd : p.num_threads * p.compute_chunk_size ∣ p.max_dataset_size) :
    ∀ (fuel round : ℕ) (st : LoopState K E),
      st.ctr ≤ p.max_dataset_size →
      p.num_threads * p.compute_chunk_size ∣ st.ctr →
      (runLoop p oracle fuel round st).ctr ≤ p.max_dataset_size := by
  intro fuel
  induction fuel with
  | zero => intro round st h1 _; exact h1
  | succ n ih =>
    intro round st h1 h2
    by_cases hc : loopCond p st
    · rw [runLoop, if_pos hc]
      have hWB : p.num_threads * p.compute_chunk_size ≤ p.max_dataset_size - st.ctr :=
        Nat.le_of_dvd (Nat.sub_pos_of_lt hc.2) (Nat.dvd_sub' hdvd h2)
      refine ih (round + 1) (loopStep p (oracle round) st) ?_ ?_
      · show st.ctr + p.num_threads * p.compute_chunk_size ≤ p.max_dataset_size
        omega
      · exact Dvd.dvd.add h2 (dvd_refl _)
    · rw [runLoop, if_neg hc]
      exact h1

/-- Claim C2 witness: with the script's configured parameters (`1600` divides
`10^10`) and a concrete sampler, the counter stays below the cap. -/
theorem runLoop_ctr_le_cap_witness :
    (runLoop (K := ℕ) (E := ℕ) configParams capOracle 3 0 ⟨[], 0⟩).ctr ≤
      configParams.max_dataset_size :=
  runLoop_ctr_le_cap configParams capOracle ⟨6250000, by norm_num [configParams]⟩
    3 0 ⟨[], 0⟩ (Nat.zero_le _) (dvd_zero _)

/-- Claim C2 counterexample: as literally stated ("`triangulation_ctr` never
exceeds `max_dataset_size`") the property fails for parameters whose round
increment does not divide the cap: with `U = 5`, `C = 5`, `W = 2`, `B = 10`
and full batches, after the first round the counter is `20 > 5`. -/
theorem runLoop_ctr_exceeds_cap_counterexample :
    (runLoop (K := ℕ) (E := ℕ) capParams capOracle 1 0 ⟨[], 0⟩).ctr = 20 ∧
      capParams.max_dataset_size = 5 ∧
      ¬ (runLoop (K := ℕ) (E := ℕ) capParams capOracle 1 0 ⟨[], 0⟩).ctr ≤
          capParams.max_dataset_size :=
  ⟨by decide, by decide, by decide⟩

/-- Claim C6: in the spec scenario (`U = 5`, `C = 1000`, `W = 2`, `B = 10`,
a mock sampler always returning full batches over only `3` distinct
fingerprints) the loop terminates — after `50` rounds the guard is false and
no amount of extra fuel changes the state — with `total_sampled = C = 1000`
and exactly the `3` reachable uniques found. -/
theorem scenario_loop_terminates_at_cap :
    (runLoop (K := ℕ) (E := ℕ) scenarioParams scenarioOracle 50 0 ⟨[], 0⟩).ctr = 1000 ∧
      (runLoop (K := ℕ) (E := ℕ) scenarioParams scenarioOracle 50 0 ⟨[], 0⟩).dict.length = 3 ∧
      ¬ loopCond scenarioParams
          (runLoop (K := ℕ) (E := ℕ) scenarioParams scenarioOracle 50 0 ⟨[], 0⟩) ∧
      ∀ extra, runLoop (K := ℕ) (E := ℕ) scenarioParams scenarioOracle (50 + extra) 0 ⟨[], 0⟩ =
        runLoop (K := ℕ) (E := ℕ) scenarioParams scenarioOracle 50 0 ⟨[], 0⟩ := by
  have hcond : ¬ loopCond scenarioParams
      (runLoop (K := ℕ) (E := ℕ) scenarioParams scenarioOracle 50 0 ⟨[], 0⟩) := by decide
  exact ⟨by decide, by decide, hcond,
    runLoop_stable scenarioParams scenarioOracle 50 0 ⟨[], 0⟩ hcond⟩


/-- Inserting into the dedup map either leaves the key list unchanged (key
already present) or appends the new key at the end. -/
theorem keysOf_dictInsert {K E : Type} [DecidableEq K]
    (dict : List (K × List E)) (k : K) (e : E) :
    keysOf (dictInsert dict k e) =
      if k ∈ keysOf dict then keysOf dict else keysOf dict ++ [k] := by
  induction dict with
  | nil => simp [dictInsert, keysOf]
  | cons p rest ih =>
    obtain ⟨k', es⟩ := p
    by_cases h : k = k'
    · subst h
      simp [dictInsert, keysOf]
    · simp only [dictInsert, if_neg h, keysOf, List.map_cons, List.mem_cons]
      simp only [keysOf] at ih
      rw [ih]
      by_cases hm : k ∈ List.map Prod.fst rest
      · simp [hm, h]
      · simp [hm, h]

/-- Insertion preserves distinctness of the dedup keys. -/
theorem nodup_keysOf_dictInsert {K E : Type} [DecidableEq K]
    {dict : List (K × List E)} (h : (keysOf dict).Nodup) (k : K) (e : E) :
    (keysOf (dictInsert dict k e)).Nodup := by
  rw [keysOf_dictInsert]
  by_cases hm : k ∈ keysOf dict
  · rw [if_pos hm]; exact h
  · rw [if_neg hm]
    rw [List.nodup_append]
    exact ⟨h, List.nodup_singleton k, by simpa using hm⟩

/-- Merging a round's results preserves distinctness of the dedup keys. -/
theorem nodup_keysOf_mergeRound {K E : Type} [DecidableEq K]
    (results : List (K × E)) :
    ∀ {dict : List (K × List E)}, (keysOf dict).Nodup →
      (keysOf (mergeRound dict results)).Nodup := by
  induction results with
  | nil => intro dict h; exact h
  | cons r rest ih =>
    intro dict h
    exact ih (nodup_keysOf_dictInsert h r.1 r.2)

/-- Every dedup map the sampling loop can produce from the empty map has
pairwise-distinct fingerprints as keys. -/
theorem nodup_keysOf_runLoop {K E : Type} [DecidableEq K] (p : SamplerParams)
    (oracle : ℕ → List (List (K × E))) :
    ∀ (fuel round : ℕ) (st : LoopState K E), (keysOf st.dict).Nodup →
      (keysOf (runLoop p oracle fuel round st).dict).Nodup := by
  intro fuel
  induction fuel with
  | zero => intro round st h; exact h
  | succ n ih =>
    intro round st h
    by_cases hc : loopCond p st
    · rw [runLoop, if_pos hc]
      exact ih (round + 1) (loopStep p (oracle round) st) (nodup_keysOf_mergeRound _ h)
    · rw [runLoop, if_neg hc]
      exact h

/-- Claim C1: for every run of the split pipeline — every sampler behavior,
every fuel, and every possible shuffle outcome (any permutation `shuffled` of
the dedup map produced by the loop) — the set of manifold fingerprints whose
entries land in the train side and the set landing in the test side are
disjoint: the split acts on whole `(fingerprint, entries)` groups, so no
manifold's entry sequence straddles the boundary. -/
theorem train_test_fingerprints_disjoint {K E : Type} [DecidableEq K]
    (p : SamplerParams) (oracle : ℕ → List (List (K × E))) (fuel : ℕ)
    (shuffled : List (K × List E)) (ratio : ℚ)
    (hperm : shuffled.Perm (runLoop p oracle fuel 0 ⟨[], 0⟩).dict) :
    List.Disjoint
      (keysOf (shuffled.take (trainSize shuffled.length ratio)))
      (keysOf (shuffled.drop (trainSize shuffled.length ratio))) := by
  have hnodup : (keysOf shuffled).Nodup :=
    ((hperm.map Prod.fst).nodup_iff).mpr
      (nodup_keysOf_runLoop p oracle fuel 0 ⟨[], 0⟩ (by simp [keysOf]))
  simp only [keysOf, List.map_take, List.map_drop]
  exact List.disjoint_take_drop hnodup (le_refl _)

/-- Claim C1 witness: a concrete run of the scenario sampler for one round
yields a three-manifold map; splitting its identity shuffle at ratio `4/5`
gives disjoint train/test fingerprint sets. -/
theorem train_test_fingerprints_disjoint_witness :
    List.Disjoint
      (keysOf ((runLoop (K := ℕ) (E := ℕ) scenarioParams scenarioOracle 1 0 ⟨[], 0⟩).dict.take
        (trainSize (runLoop (K := ℕ) (E := ℕ) scenarioParams scenarioOracle 1 0 ⟨[], 0⟩).dict.length (4 / 5))))
      (keysOf ((runLoop (K := ℕ) (E := ℕ) scenarioParams scenarioOracle 1 0 ⟨[], 0⟩).dict.drop
        (trainSize (runLoop (K := ℕ) (E := ℕ) scenarioParams scenarioOracle 1 0 ⟨[], 0⟩).dict.length (4 / 5)))) :=
  train_test_fingerprints_disjoint scenarioParams scenarioOracle 1 _ (4 / 5)
    (List.Perm.refl _)


/-- Flattening respects permutations of the outer (manifold-level) list. -/
theorem flatten_perm_of_perm {E : Type} {l₁ l₂ : List (List E)}
    (h : l₁.Perm l₂) : l₁.flatten.Perm l₂.flatten := by
  induction h with
  | nil => exact List.Perm.refl _
  | cons x _ ih =>
    simp only [List.flatten_cons]
    exact ih.append_left x
  | swap x y l =>
    simp only [List.flatten_cons]
    rw [← List.append_assoc, ← List.append_assoc]
    exact List.perm_append_comm.append_right _
  | trans _ _ ih1 ih2 => exact ih1.trans ih2

/-- Claim C9: splitting and flattening form a partition of the accumulated
entries: for any shuffle outcome, the flattened train dataset followed by the
flattened test dataset is a permutation of the flattened unshuffled dataset —
every `(GKZVector, Label)` entry appears exactly once across the two sides —
and in particular the train size plus the test size equals the total number of
accumulated entries. -/
theorem split_flatten_partition {E : Type} (l shuffled : List (List E))
    (ratio : ℚ) (hperm : shuffled.Perm l) :
    ((splitFlatten shuffled ratio).1 ++ (splitFlatten shuffled ratio).2).Perm l.flatten ∧
      (splitFlatten shuffled ratio).1.length + (splitFlatten shuffled ratio).2.length =
        l.flatten.length := by
  have h1 : (splitFlatten shuffled ratio).1 ++ (splitFlatten shuffled ratio).2 =
      shuffled.flatten := by
    simp only [splitFlatten]
    rw [← List.flatten_append, List.take_append_drop]
  have h2 : shuffled.flatten.Perm l.flatten := flatten_perm_of_perm hperm
  constructor
  · rw [h1]
    exact h2
  · rw [← List.length_append, h1]
    exact h2.length_eq

/-- Claim C9 witness: a concrete three-manifold dataset, shuffled, split at
ratio `4/5` and flattened, partitions the five entries. -/
theorem split_flatten_partition_witness :
    ((splitFlatten [[20, 21], [30], [10, 11]] (4 / 5)).1 ++
        (splitFlatten [[20, 21], [30], [10, 11]] (4 / 5)).2).Perm
      ([[10, 11], [20, 21], [30]] : List (List ℕ)).flatten ∧
      (splitFlatten [[20, 21], [30], [10, 11]] (4 / 5)).1.length +
          (splitFlatten [[20, 21], [30], [10, 11]] (4 / 5)).2.length =
        ([[10, 11], [20, 21], [30]] : List (List ℕ)).flatten.length :=
  split_flatten_partition [[10, 11], [20, 21], [30]] [[20, 21], [30], [10, 11]]
    (4 / 5) (by decide)

/-- Claim C5: for every shuffled list of `K` manifold groups and every split
ratio in `[0, 1]`, the split puts exactly the first `⌊K * ratio⌋` groups (with
all their entries) in train and the remaining `K - ⌊K * ratio⌋` in test. -/
theorem split_sizes {E : Type} (l : List (List E)) (ratio : ℚ)
    (h0 : 0 ≤ ratio) (h1 : ratio ≤ 1) :
    l.take (trainSize l.length ratio) ++ l.drop (trainSize l.length ratio) = l ∧
      ((l.take (trainSize l.length ratio)).length : ℤ) = ⌊(l.length : ℚ) * ratio⌋ ∧
      ((l.drop (trainSize l.length ratio)).length : ℤ) =
        (l.length : ℤ) - ⌊(l.length : ℚ) * ratio⌋ := by
  have hfl : 0 ≤ ⌊(l.length : ℚ) * ratio⌋ :=
    Int.floor_nonneg.mpr (mul_nonneg (by positivity) h0)
  have hle : ⌊(l.length : ℚ) * ratio⌋ ≤ (l.length : ℤ) := by
    have hmul : (l.length : ℚ) * ratio ≤ (l.length : ℚ) :=
      mul_le_of_le_one_right (by positivity) h1
    calc ⌊(l.length : ℚ) * ratio⌋ ≤ ⌊(l.length : ℚ)⌋ := Int.floor_le_floor hmul
      _ = (l.length : ℤ) := Int.floor_natCast _
  have hsize : (trainSize l.length ratio : ℤ) = ⌊(l.length : ℚ) * ratio⌋ :=
    Int.toNat_of_nonneg hfl
  have hsle : trainSize l.length ratio ≤ l.length := by
    have := hsize ▸ hle
    exact_mod_cast this
  refine ⟨List.take_append_drop _ _, ?_, ?_⟩
  · rw [List.length_take, min_eq_left hsle]
    exact hsize
  · rw [List.length_drop, Nat.cast_sub hsle, hsize]

/-- Claim C5 witness: with `K = 10` manifold groups and ratio `4/5`, exactly
`8` groups go to train and `2` to test. -/
theorem split_sizes_witness :
    (let l : List (List ℕ) := [[0], [1], [2], [3], [4], [5], [6], [7], [8], [9]];
      l.take (trainSize l.length (4 / 5)) ++ l.drop (trainSize l.length (4 / 5)) = l ∧
      ((l.take (trainSize l.length (4 / 5))).length : ℤ) = ⌊(l.length : ℚ) * (4 / 5)⌋ ∧
      ((l.drop (trainSize l.length (4 / 5))).length : ℤ) =
        (l.length : ℤ) - ⌊(l.length : ℚ) * (4 / 5)⌋) :=
  split_sizes [[0], [1], [2], [3], [4], [5], [6], [7], [8], [9]] (4 / 5)
    (by norm_num) (by norm_num)


/-- Claim C4: the normalization constants are per-feature mean and standard
deviation of the train feature matrix only, and test features are transformed
entrywise as `(x - mean) / (std + tol)` with `tol = 1e-10`: two runs with
identical train feature matrices have identical constants, whatever their test
entries — test statistics never leak into the constants. -/
theorem normalization_train_only (d₁ d₂ : List (List (List ℝ × ℝ))) (r₁ r₂ : ℚ)
    (h : trainFeatures d₁ r₁ = trainFeatures d₂ r₂) :
    (∀ j, featMean d₁ r₁ j = featMean d₂ r₂ j ∧ featStd d₁ r₁ j = featStd d₂ r₂ j) ∧
      normalizedTestFeatures d₁ r₁ = (testFeatures d₁ r₁).map (fun row =>
        (List.range row.length).map fun j =>
          (row.getD j 0 - featMean d₁ r₁ j) / (featStd d₁ r₁ j + tol)) ∧
      normalizedTrainFeatures d₁ r₁ = (trainFeatures d₁ r₁).map (fun row =>
        (List.range row.length).map fun j =>
          (row.getD j 0 - featMean d₁ r₁ j) / (featStd d₁ r₁ j + tol)) := by
  refine ⟨fun j => ⟨?_, ?_⟩, rfl, rfl⟩
  · unfold featMean
    rw [h]
  · unfold featStd
    rw [h]

/-- Claim C4 witness: two concrete two-manifold runs sharing the train half
but with different test entries get identical constants. -/
theorem normalization_train_only_witness :
    (trainFeatures [[([1], 2)], [([3], 4)]] (1 / 2) =
        trainFeatures [[([1], 2)], [([5], 6)]] (1 / 2)) ∧
      ((∀ j, featMean [[([1], 2)], [([3], 4)]] (1 / 2) j =
            featMean [[([1], 2)], [([5], 6)]] (1 / 2) j ∧
          featStd [[([1], 2)], [([3], 4)]] (1 / 2) j =
            featStd [[([1], 2)], [([5], 6)]] (1 / 2) j) ∧
        normalizedTestFeatures [[([1], 2)], [([3], 4)]] (1 / 2) =
          (testFeatures [[([1], 2)], [([3], 4)]] (1 / 2)).map (fun row =>
            (List.range row.length).map fun j =>
              (row.getD j 0 - featMean [[([1], 2)], [([3], 4)]] (1 / 2) j) /
                (featStd [[([1], 2)], [([3], 4)]] (1 / 2) j + tol)) ∧
        normalizedTrainFeatures [[([1], 2)], [([3], 4)]] (1 / 2) =
          (trainFeatures [[([1], 2)], [([3], 4)]] (1 / 2)).map (fun row =>
            (List.range row.length).map fun j =>
              (row.getD j 0 - featMean [[([1], 2)], [([3], 4)]] (1 / 2) j) /
                (featStd [[([1], 2)], [([3], 4)]] (1 / 2) j + tol))) := by
  have htrain : trainFeatures [[([1], 2)], [([3], 4)]] (1 / 2) =
      trainFeatures [[([1], 2)], [([5], 6)]] (1 / 2) := by
    have hsize : trainSize 2 (1 / 2) = 1 := by
      norm_num [trainSize]
    show featuresOf (List.take (trainSize 2 (1 / 2))
        [[(([1] : List ℝ), (2 : ℝ))], [([3], 4)]]).flatten =
      featuresOf (List.take (trainSize 2 (1 / 2))
        [[(([1] : List ℝ), (2 : ℝ))], [([5], 6)]]).flatten
    rw [hsize]
    rfl
  exact ⟨htrain, normalization_train_only _ _ _ _ htrain⟩

/-- Elementwise product with an all-zero right factor is all-zero. -/
theorem zipWith_mul_right_zero (m : List ℝ) :
    ∀ (z : List ℝ), (∀ b ∈ z, b = 0) →
      ∀ c ∈ List.zipWith (· * ·) m z, c = 0 := by
  induction m with
  | nil =>
    intro z _ c hc
    simp at hc
  | cons a m ih =>
    intro z hz c hc
    cases z with
    | nil => simp at hc
    | cons b z =>
      rw [List.zipWith_cons_cons] at hc
      rcases List.mem_cons.mp hc with h | h
      · rw [h, hz b (List.mem_cons_self _ _), mul_zero]
      · exact ih z (fun x hx => hz x (List.mem_cons_of_mem _ hx)) c h

/-- Adding an all-zero vector at least as long as `x` leaves `x` unchanged. -/
theorem zipWith_add_right_zero (x : List ℝ) :
    ∀ (z : List ℝ), (∀ b ∈ z, b = 0) → x.length ≤ z.length →
      List.zipWith (· + ·) x z = x := by
  induction x with
  | nil => intro z _ _; rfl
  | cons a x ih =>
    intro z hz hlen
    cases z with
    | nil => simp at hlen
    | cons b z =>
      rw [List.zipWith_cons_cons, hz b (List.mem_cons_self _ _), add_zero,
        ih z (fun c hc => hz c (List.mem_cons_of_mem _ hc))
          (Nat.le_of_succ_le_succ hlen)]

/-- ReLU is the identity on componentwise-nonnegative vectors. -/
theorem relu_eq_self {x : List ℝ} (hx : ∀ a ∈ x, 0 ≤ a) : relu x = x := by
  induction x with
  | nil => rfl
  | cons a t ih =>
    simp only [relu, List.map_cons] at ih ⊢
    rw [max_eq_left (hx a (List.mem_cons_self _ _)),
      ih (fun b hb => hx b (List.mem_cons_of_mem _ hb))]

/-- Claim C8: with the gate at its initialization value `alpha = 0` (and the
layer's tensors of matching width), `ResDenseLayer.forward` is `relu`: the
scaled linear transform contributes nothing, for every dropout mask; on
nonnegative post-ReLU activations the block is the identity — a near-identity
residual at initialization. -/
theorem resDenseLayer_forward_at_init (l : ResDenseLayer) (mask x : List ℝ)
    (halpha : l.alpha = initAlpha)
    (hw : x.length ≤ l.weight.length) (hb : x.length ≤ l.bias.length)
    (hm : x.length ≤ mask.length) :
    ResDenseLayer.forward l mask x = relu x ∧
      ((∀ a ∈ x, 0 ≤ a) → ResDenseLayer.forward l mask x = x) := by
  have halpha0 : l.alpha = 0 := halpha
  have hzero : ∀ c ∈ (l.dense x).map (fun v => l.alpha * v), c = 0 := by
    intro c hc
    rcases List.mem_map.mp hc with ⟨v, _, rfl⟩
    rw [halpha0, zero_mul]
  have hdz : ∀ c ∈ dropoutApply mask ((l.dense x).map fun v => l.alpha * v), c = 0 :=
    zipWith_mul_right_zero _ _ hzero
  have hlen : x.length ≤ (dropoutApply mask ((l.dense x).map fun v => l.alpha * v)).length := by
    have hd : x.length ≤ (l.dense x).length := by
      unfold ResDenseLayer.dense matVec
      rw [List.length_zipWith, List.length_map]
      exact le_min hw hb
    unfold dropoutApply
    rw [List.length_zipWith, List.length_map]
    exact le_min hm hd
  have hfwd : ResDenseLayer.forward l mask x = relu x := by
    unfold ResDenseLayer.forward
    rw [zipWith_add_right_zero _ _ hdz hlen]
  exact ⟨hfwd, fun hx => hfwd.trans (relu_eq_self hx)⟩

/-- Claim C8 witness: a concrete width-one layer with `alpha = 0` maps `[5]`
to `relu [5]` and, the input being nonnegative, to `[5]` itself. -/
theorem resDenseLayer_forward_at_init_witness :
    ResDenseLayer.forward ⟨[[2]], [3], 0⟩ [1] [5] = relu [5] ∧
      ((∀ a ∈ ([5] : List ℝ), 0 ≤ a) →
        ResDenseLayer.forward ⟨[[2]], [3], 0⟩ [1] [5] = [5]) :=
  resDenseLayer_forward_at_init ⟨[[2]], [3], 0⟩ [1] [5] rfl (by decide) (by decide)
    (by decide)


/-- Claim C7: when the primary `cgal` backend raises (outcome `none`), the
task retries the same call with the `qhull` fallback and processes its batch;
when the fallback also raises, the task returns the empty list rather than
propagating, and an empty task result contributes nothing to the round's
merge — a both-backends failure is non-fatal. -/
theorem backend_fallback {T A : Type} (gkz_phi : T → List A)
    (coo : T → List (List ℤ)) (logVol : T → ℝ) (ts : List T) :
    generate_CYs gkz_phi coo logVol none (some ts) =
        ts.map (processTriangulation gkz_phi coo logVol) ∧
      generate_CYs gkz_phi coo logVol none none = [] ∧
      ∀ (dict : List (List (List ℤ) × List (List A × ℝ)))
        (rest : List (List (List (List ℤ) × List A × ℝ))),
        mergeRound dict
            (List.flatten ((generate_CYs gkz_phi coo logVol none none).map
              (fun d => (d.1, d.2)) :: rest.map (List.map fun d => (d.1, d.2)))) =
          mergeRound dict (List.flatten (rest.map (List.map fun d => (d.1, d.2)))) := by
  refine ⟨rfl, rfl, fun dict rest => ?_⟩
  rw [show (generate_CYs gkz_phi coo logVol none none) = ([] : List (List (List ℤ) × List A × ℝ)) from rfl]
  rw [List.map_nil, List.flatten_cons, List.nil_append]


end CYDataset
